import Mathlib

/-!
Verification of the Pixel-encryptor core (`src/encryption_tool.py`).

The Python source is shallowly embedded below.  Byte buffers are `List Nat`
(every byte is a `Nat`, reduced `% 256` exactly where the source's byte
types force it), pixels are opaque values, and Python's `int` appears as
`Int` where the source can receive a negative value.

Embedded pieces, in order:
 * SHA-256 (`hashlib.sha256`), spelled out from the FIPS-180-4 algorithm
   that `hashlib` implements: padding, message schedule, compression.
 * UTF-8 encoding of a string (`str.encode('utf-8')`).
 * `derive_seed_from_key`, `keystream_bytes` from the source.
 * The Mersenne Twister MT19937 generator together with CPython's
   `random.Random(seed)` seeding (`init_genrand`, `init_by_array`, the
   decomposition of an int seed into 32-bit words), `getrandbits`,
   `_randbelow` and `random.shuffle` — the exact machinery behind
   `random.Random(seed).shuffle(indices)` in the source.  The rejection
   loop of `_randbelow` is modelled with a (huge) fuel bound; on fuel
   exhaustion it returns 0, which keeps the result inside the requested
   bound.  No theorem below depends on the exact drawn values.
 * `mode_xor`, `mode_swap`, `invert_swap` and the `main` dispatch.
-/

/-! ### 32-bit helpers -/

/-- Truncation to a 32-bit machine word. -/
def w32 (x : Nat) : Nat := x % 4294967296

/-- Truncation to a 64-bit machine word. -/
def w64 (x : Nat) : Nat := x % 18446744073709551616

/-- Right rotation of a 32-bit word by `n` places. -/
def rotr32 (n x : Nat) : Nat := w32 ((x >>> n) ||| (x <<< (32 - n)))

/-- Big-endian value of a byte string (Python `int.from_bytes(bs, 'big')`). -/
def beBytesToNat (bs : List Nat) : Nat := bs.foldl (fun a b => a * 256 + b) 0

/-- The four big-endian bytes of a 32-bit word. -/
def wordBytesBE (x : Nat) : List Nat :=
  [(x >>> 24) % 256, (x >>> 16) % 256, (x >>> 8) % 256, x % 256]

/-- The eight big-endian bytes of a 64-bit word. -/
def word64BytesBE (x : Nat) : List Nat :=
  [(x >>> 56) % 256, (x >>> 48) % 256, (x >>> 40) % 256, (x >>> 32) % 256,
   (x >>> 24) % 256, (x >>> 16) % 256, (x >>> 8) % 256, x % 256]

/-- Split a list into consecutive chunks of `k` elements (the last chunk may
be shorter).  `k = 0` yields `[]`. -/
def chunksOf (k : Nat) : List α → List (List α)
  | [] => []
  | x :: xs =>
    if h : k = 0 then []
    else (x :: xs).take k :: chunksOf k ((x :: xs).drop k)
termination_by l => l.length
decreasing_by simp; omega

/-! ### SHA-256 (the algorithm behind `hashlib.sha256`) -/

/-- SHA-256 round constants (the 64 words of FIPS-180-4, in decimal). -/
def shaK : List Nat :=
  [1116352408, 1899447441, 3049323471, 3921009573, 961987163, 1508970993,
   2453635748, 2870763221, 3624381080, 310598401, 607225278, 1426881987,
   1925078388, 2162078206, 2614888103, 3248222580, 3835390401, 4022224774,
   264347078, 604807628, 770255983, 1249150122, 1555081692, 1996064986,
   2554220882, 2821834349, 2952996808, 3210313671, 3336571891, 3584528711,
   113926993, 338241895, 666307205, 773529912, 1294757372, 1396182291,
   1695183700, 1986661051, 2177026350, 2456956037, 2730485921, 2820302411,
   3259730800, 3345764771, 3516065817, 3600352804, 4094571909, 275423344,
   430227734, 506948616, 659060556, 883997877, 958139571, 1322822218,
   1537002063, 1747873779, 1955562222, 2024104815, 2227730452, 2361852424,
   2428436474, 2756734187, 3204031479, 3329325298]

/-- SHA-256 initial hash value (in decimal). -/
def shaH0 : List Nat :=
  [1779033703, 3144134277, 1013904242, 2773480762,
   1359893119, 2600822924, 528734635, 1541459225]

/-- SHA-256 `Ch` function. -/
def shaCh (e f g : Nat) : Nat := (e &&& f) ^^^ ((e ^^^ 0xffffffff) &&& g)

/-- SHA-256 `Maj` function. -/
def shaMaj (a b c : Nat) : Nat := (a &&& b) ^^^ (a &&& c) ^^^ (b &&& c)

/-- SHA-256 big sigma 0. -/
def bsig0 (x : Nat) : Nat := rotr32 2 x ^^^ rotr32 13 x ^^^ rotr32 22 x

/-- SHA-256 big sigma 1. -/
def bsig1 (x : Nat) : Nat := rotr32 6 x ^^^ rotr32 11 x ^^^ rotr32 25 x

/-- SHA-256 small sigma 0. -/
def ssig0 (x : Nat) : Nat := rotr32 7 x ^^^ rotr32 18 x ^^^ (x >>> 3)

/-- SHA-256 small sigma 1. -/
def ssig1 (x : Nat) : Nat := rotr32 17 x ^^^ rotr32 19 x ^^^ (x >>> 10)

/-- SHA-256 padding of a byte message: append `0x80`, zeros, and the
64-bit big-endian bit length, reaching a multiple of 64 bytes. -/
def shaPad (msg : List Nat) : List Nat :=
  msg ++ [0x80] ++ List.replicate ((64 - ((msg.length + 9) % 64)) % 64) 0
      ++ word64BytesBE (w64 (8 * msg.length))

/-- SHA-256 message schedule: extend the 16 block words to 64. -/
def shaSchedule (block : List Nat) : List Nat :=
  (List.range 48).foldl
    (fun w _ =>
      w ++ [w32 (ssig1 (w.getD (w.length - 2) 0) + w.getD (w.length - 7) 0 +
                 ssig0 (w.getD (w.length - 15) 0) + w.getD (w.length - 16) 0)])
    block

/-- SHA-256 compression of one 16-word block into the running hash. -/
def shaCompress (h : List Nat) (block : List Nat) : List Nat :=
  let w := shaSchedule block
  let s := (List.range 64).foldl
    (fun st t =>
      match st with
      | (a, b, c, d, e, f, g, hh) =>
        let t1 := w32 (hh + bsig1 e + shaCh e f g + shaK.getD t 0 + w.getD t 0)
        let t2 := w32 (bsig0 a + shaMaj a b c)
        (w32 (t1 + t2), a, b, c, w32 (d + t1), e, f, g))
    (h.getD 0 0, h.getD 1 0, h.getD 2 0, h.getD 3 0,
     h.getD 4 0, h.getD 5 0, h.getD 6 0, h.getD 7 0)
  match s with
  | (a, b, c, d, e, f, g, hh) =>
    [w32 (h.getD 0 0 + a), w32 (h.getD 1 0 + b), w32 (h.getD 2 0 + c),
     w32 (h.getD 3 0 + d), w32 (h.getD 4 0 + e), w32 (h.getD 5 0 + f),
     w32 (h.getD 6 0 + g), w32 (h.getD 7 0 + hh)]

/-- The eight 32-bit words of the SHA-256 state after absorbing `msg`. -/
def sha256Words (msg : List Nat) : List Nat :=
  (chunksOf 64 (shaPad msg)).foldl
    (fun h blk => shaCompress h ((chunksOf 4 blk).map beBytesToNat)) shaH0

/-- SHA-256 digest of a byte message, as its 32 bytes
(`hashlib.sha256(msg).digest()`). -/
def sha256 (msg : List Nat) : List Nat :=
  ((sha256Words msg).map wordBytesBE).flatten

theorem shaCompress_length (h block : List Nat) : (shaCompress h block).length = 8 := by
  simp only [shaCompress]
  rfl

theorem sha256Words_length (msg : List Nat) : (sha256Words msg).length = 8 := by
  unfold sha256Words
  have : ∀ (l : List (List Nat)) (h : List Nat), h.length = 8 →
      (l.foldl (fun h blk => shaCompress h ((chunksOf 4 blk).map beBytesToNat)) h).length = 8 := by
    intro l
    induction l with
    | nil => intro h hh; simpa using hh
    | cons b bs ih => intro h _; exact ih _ (shaCompress_length _ _)
  exact this _ _ rfl

theorem sha256_length (msg : List Nat) : (sha256 msg).length = 32 := by
  unfold sha256
  have : ∀ ws : List Nat, ((ws.map wordBytesBE).flatten).length = 4 * ws.length := by
    intro ws
    induction ws with
    | nil => simp
    | cons x xs ih => simp [wordBytesBE, ih]; omega
  rw [this, sha256Words_length]

theorem sha256_bytes_lt (msg : List Nat) : ∀ b ∈ sha256 msg, b < 256 := by
  intro b hb
  unfold sha256 at hb
  rcases List.mem_flatten.1 hb with ⟨l, hl, hbl⟩
  rcases List.mem_map.1 hl with ⟨w, _, rfl⟩
  simp only [wordBytesBE, List.mem_cons, List.not_mem_nil, or_false] at hbl
  rcases hbl with rfl | rfl | rfl | rfl <;> exact Nat.mod_lt _ (by norm_num)

/-! ### UTF-8 encoding (`str.encode('utf-8')`) -/

/-- UTF-8 bytes of one Unicode code point. -/
def utf8Char (c : Nat) : List Nat :=
  if c < 0x80 then [c]
  else if c < 0x800 then
    [0xC0 ||| (c >>> 6), 0x80 ||| (c &&& 0x3F)]
  else if c < 0x10000 then
    [0xE0 ||| (c >>> 12), 0x80 ||| ((c >>> 6) &&& 0x3F), 0x80 ||| (c &&& 0x3F)]
  else
    [0xF0 ||| (c >>> 18), 0x80 ||| ((c >>> 12) &&& 0x3F),
     0x80 ||| ((c >>> 6) &&& 0x3F), 0x80 ||| (c &&& 0x3F)]

/-- UTF-8 encoding of a string (Python `key.encode('utf-8')`). -/
def utf8Encode (s : String) : List Nat :=
  (s.data.map (fun c => utf8Char c.toNat)).flatten

/-! ### `derive_seed_from_key` and `keystream_bytes` (the source, lines 15-25) -/

/-- Source `derive_seed_from_key`: SHA-256 of the UTF-8 key, first 8 digest
bytes read big-endian (`int.from_bytes(h[:8], 'big')`). -/
def derive_seed_from_key (key : String) : Nat :=
  beBytesToNat ((sha256 (utf8Encode key)).take 8)

/-- The accumulation loop of `keystream_bytes`: while `out` is shorter than
`target`, replace the state with its SHA-256 digest and append it. -/
def ksAccum (state out : List Nat) (target : Nat) : List Nat :=
  if h : out.length < target then
    ksAccum (sha256 state) (out ++ sha256 state) target
  else out
termination_by target - out.length
decreasing_by simp [sha256_length]; omega

/-- Python slice endpoint `l[:stop]` for a list of length `len`: a negative
stop counts from the end, clamped at zero. -/
def pySliceStop (len : Nat) (stop : Int) : Nat :=
  if stop < 0 then ((len : Int) + stop).toNat else stop.toNat

/-- Source `keystream_bytes`: seed the state with SHA-256 of the UTF-8 key,
loop `while len(out) < length`, return `out[:length]`.  The length is `Int`
because Python would accept a negative argument. -/
def keystream_bytes (key : String) (length : Int) : List Nat :=
  let out := ksAccum (sha256 (utf8Encode key)) [] length.toNat
  out.take (pySliceStop out.length length)

/-- The iterated SHA-256 chain of states: `chainState key 0` is the digest of
the key, and each successor is the digest of the previous state. -/
def chainState (key : String) : Nat → List Nat
  | 0 => sha256 (utf8Encode key)
  | i + 1 => sha256 (chainState key i)

/-- Concatenation of the first `m` chained digests `H1 ++ H2 ++ ... ++ Hm`
(the spec's keystream source; `H0 = chainState key 0` is not emitted). -/
def chainBytes (key : String) (m : Nat) : List Nat :=
  ((List.range m).map (fun i => chainState key (i + 1))).flatten

theorem chainState_length (key : String) (i : Nat) :
    (chainState key i).length = 32 := by
  cases i <;> simp [chainState, sha256_length]

theorem chainBytes_succ (key : String) (m : Nat) :
    chainBytes key (m + 1) = chainBytes key m ++ chainState key (m + 1) := by
  simp [chainBytes, List.range_succ]

theorem chainBytes_length (key : String) (m : Nat) :
    (chainBytes key m).length = 32 * m := by
  induction m with
  | zero => simp [chainBytes]
  | succ k ih =>
    rw [chainBytes_succ, List.length_append, ih, chainState_length]
    omega

theorem ksAccum_chain (key : String) :
    ∀ k i target : Nat, target - 32 * i ≤ k →
      ∃ m, i ≤ m ∧
        ksAccum (chainState key i) (chainBytes key i) target = chainBytes key m ∧
        target ≤ 32 * m := by
  intro k
  induction k with
  | zero =>
    intro i target hle
    refine ⟨i, le_refl _, ?_, by omega⟩
    rw [ksAccum, dif_neg (by rw [chainBytes_length]; omega)]
  | succ k ih =>
    intro i target hle
    by_cases hlt : 32 * i < target
    · rcases ih (i + 1) target (by omega) with ⟨m, him, heq, hm⟩
      refine ⟨m, by omega, ?_, hm⟩
      rw [ksAccum, dif_pos (by rw [chainBytes_length]; omega)]
      have h1 : sha256 (chainState key i) = chainState key (i + 1) := rfl
      rw [h1, ← chainBytes_succ key i]
      exact heq
    · exact ⟨i, le_refl _,
        by rw [ksAccum, dif_neg (by rw [chainBytes_length]; omega)], by omega⟩

theorem chainBytes_append_of_le (key : String) {a b : Nat} (h : a ≤ b) :
    ∃ s, chainBytes key b = chainBytes key a ++ s := by
  induction b, h using Nat.le_induction with
  | base => exact ⟨[], by simp⟩
  | succ b hb ih =>
    rcases ih with ⟨s, hs⟩
    exact ⟨s ++ chainState key (b + 1), by rw [chainBytes_succ, hs, List.append_assoc]⟩

theorem chainBytes_take_eq (key : String) {a b t : Nat}
    (ha : t ≤ 32 * a) (hb : t ≤ 32 * b) :
    (chainBytes key a).take t = (chainBytes key b).take t := by
  rcases Nat.le_total a b with hab | hab
  · rcases chainBytes_append_of_le key hab with ⟨s, hs⟩
    rw [hs, List.take_append_of_le_length (by rw [chainBytes_length]; omega)]
  · rcases chainBytes_append_of_le key hab with ⟨s, hs⟩
    rw [hs, List.take_append_of_le_length (by rw [chainBytes_length]; omega)]

theorem keystream_bytes_eq_chain (key : String) (L : Int) (hL : 0 ≤ L) :
    ∃ m0, keystream_bytes key L = (chainBytes key m0).take L.toNat ∧ L.toNat ≤ 32 * m0 := by
  rcases ksAccum_chain key L.toNat 0 L.toNat (by omega) with ⟨m0, _, heq, hm0⟩
  refine ⟨m0, ?_, hm0⟩
  have h0 : chainState key 0 = sha256 (utf8Encode key) := rfl
  have hb0 : chainBytes key 0 = ([] : List Nat) := by simp [chainBytes]
  simp only [keystream_bytes]
  rw [← h0, ← hb0, heq]
  have : pySliceStop (chainBytes key m0).length L = L.toNat := by
    simp [pySliceStop]
    omega
  rw [this]

theorem keystream_bytes_take (key : String) (L : Int) (hL : 0 ≤ L) :
    ∀ m, L.toNat ≤ 32 * m → keystream_bytes key L = (chainBytes key m).take L.toNat := by
  intro m hm
  rcases keystream_bytes_eq_chain key L hL with ⟨m0, heq, hm0⟩
  rw [heq, chainBytes_take_eq key hm0 hm]

theorem keystream_bytes_length (key : String) (L : Int) (hL : 0 ≤ L) :
    (keystream_bytes key L).length = L.toNat := by
  rcases keystream_bytes_eq_chain key L hL with ⟨m0, heq, hm0⟩
  rw [heq, List.length_take, chainBytes_length]
  omega

theorem keystream_bytes_of_neg (key : String) (L : Int) (hL : L < 0) :
    keystream_bytes key L = [] := by
  have ht : L.toNat = 0 := Int.toNat_eq_zero.2 (le_of_lt hL)
  simp only [keystream_bytes, ht]
  rw [ksAccum, dif_neg (by simp)]
  simp

/-! ### MT19937 and CPython `random.Random(seed).shuffle` -/

/-- State of the MT19937 generator: 624 32-bit words plus the output index. -/
structure MTState where
  mt : List Nat
  idx : Nat

/-- MT19937 `init_genrand`: fill the state array from a 32-bit seed. -/
def init_genrand (s : Nat) : List Nat :=
  (List.range' 1 623).foldl
    (fun mt i =>
      let prev := mt.getD (i - 1) 0
      mt ++ [w32 (1812433253 * (prev ^^^ (prev >>> 30)) + i)])
    [w32 s]

/-- First mixing pass of MT19937 `init_by_array` (state, index `i`, key index `j`). -/
def ibaMix1 (key : List Nat) (st : List Nat × Nat × Nat) (_step : Nat) :
    List Nat × Nat × Nat :=
  let mt := st.1
  let i := st.2.1
  let j := st.2.2
  let prev := mt.getD (i - 1) 0
  let v := w32 ((mt.getD i 0 ^^^ w32 ((prev ^^^ (prev >>> 30)) * 1664525)) + key.getD j 0 + j)
  let mt := mt.set i v
  let i := i + 1
  let j := j + 1
  let mt2i := if i ≥ 624 then (mt.set 0 (mt.getD 623 0), 1) else (mt, i)
  (mt2i.1, mt2i.2, if j ≥ key.length then 0 else j)

/-- Second mixing pass of MT19937 `init_by_array` (state, index `i`). -/
def ibaMix2 (st : List Nat × Nat) (_step : Nat) : List Nat × Nat :=
  let mt := st.1
  let i := st.2
  let prev := mt.getD (i - 1) 0
  let v := w32 ((mt.getD i 0 ^^^ w32 ((prev ^^^ (prev >>> 30)) * 1566083941)) + 4294967296 - (i % 4294967296))
  let mt := mt.set i v
  let i := i + 1
  if i ≥ 624 then (mt.set 0 (mt.getD 623 0), 1) else (mt, i)

/-- MT19937 `init_by_array`, used by CPython to seed from an arbitrary int. -/
def init_by_array (key : List Nat) : List Nat :=
  let mt := init_genrand 19650218
  let st1 := (List.range (max 624 key.length)).foldl (ibaMix1 key) (mt, 1, 0)
  let st2 := (List.range 623).foldl ibaMix2 (st1.1, st1.2.1)
  st2.1.set 0 2147483648

/-- Little-endian 32-bit words of a nonzero natural number. -/
def keyWords (n : Nat) : List Nat :=
  if n = 0 then [] else n % 4294967296 :: keyWords (n / 4294967296)
termination_by n
decreasing_by exact Nat.div_lt_self (by omega) (by omega)

/-- CPython `random.Random(seed)` for a non-negative int seed: split the seed
into 32-bit words (at least one word) and run `init_by_array`; the first
draw will trigger a twist because the index starts at 624. -/
def mtFromSeed (seed : Nat) : MTState :=
  ⟨init_by_array (if seed = 0 then [0] else keyWords seed), 624⟩

/-- One MT19937 twist (state regeneration), performed in place. -/
def mtTwist (mt : List Nat) : List Nat :=
  (List.range 624).foldl
    (fun m i =>
      let y := (m.getD i 0 &&& 2147483648) ||| (m.getD ((i + 1) % 624) 0 &&& 2147483647)
      m.set i ((m.getD ((i + 397) % 624) 0 ^^^ (y >>> 1)) ^^^
        (if y % 2 = 1 then 2567483615 else 0)))
    mt

/-- MT19937 `genrand_uint32`: twist when the index is exhausted, then read
and temper one word. -/
def genrand (s : MTState) : Nat × MTState :=
  let s := if s.idx ≥ 624 then MTState.mk (mtTwist s.mt) 0 else s
  let y := s.mt.getD s.idx 0
  let y := y ^^^ (y >>> 11)
  let y := y ^^^ ((y <<< 7) &&& 2636928640)
  let y := y ^^^ ((y <<< 15) &&& 4022730752)
  let y := y ^^^ (y >>> 18)
  (y, MTState.mk s.mt (s.idx + 1))

/-- CPython `getrandbits(k)`: one tempered word shifted down for `k ≤ 32`,
otherwise little-endian 32-bit digits. -/
def getrandbits (s : MTState) (k : Nat) : Nat × MTState :=
  if h : k ≤ 32 then
    let r := genrand s
    (r.1 >>> (32 - k), r.2)
  else
    let r := genrand s
    let rest := getrandbits r.2 (k - 32)
    (r.1 + (rest.1 <<< 32), rest.2)
termination_by k
decreasing_by omega

/-- Python `int.bit_length()`. -/
def bitLength (n : Nat) : Nat := if n = 0 then 0 else Nat.log2 n + 1

/-- CPython `_randbelow_with_getrandbits` rejection loop, with fuel; on
exhaustion it yields 0 (still below any positive bound). -/
def randbelowFuel (n k : Nat) : Nat → MTState → Nat × MTState
  | 0, s => (0, s)
  | fuel + 1, s =>
    let r := getrandbits s k
    if r.1 < n then (r.1, r.2) else randbelowFuel n k fuel r.2

/-- CPython `_randbelow(n)`: draw `bit_length n` bits until below `n`. -/
def randbelow (s : MTState) (n : Nat) : Nat × MTState :=
  randbelowFuel n (bitLength n) 4294967296 s

/-- Python parallel assignment `x[i], x[j] = x[j], x[i]` on a list. -/
def listSwap (l : List Nat) (i j : Nat) : List Nat :=
  let xi := l.getD i 0
  let xj := l.getD j 0
  (l.set i xj).set j xi

/-- One iteration of CPython `random.shuffle`: draw `j` below `i + 1` and
swap positions `i` and `j`. -/
def shuffleStep (st : List Nat × MTState) (i : Nat) : List Nat × MTState :=
  let r := randbelow st.2 (i + 1)
  (listSwap st.1 i r.1, r.2)

/-- CPython `random.shuffle(x)`: Fisher-Yates from the back,
`for i in reversed(range(1, len(x)))`. -/
def pyShuffle (x : List Nat) (s : MTState) : List Nat × MTState :=
  ((List.range' 1 (x.length - 1)).reverse).foldl shuffleStep (x, s)

/-- Source `mode_swap`/`invert_swap` lines 39-42/52-55: seed a fresh
generator from the key-derived seed and shuffle `list(range(n))`. -/
def pyShuffleIndices (n : Nat) (seed : Nat) : List Nat :=
  (pyShuffle (List.range n) (mtFromSeed seed)).1

/-! ### The shuffle produces a permutation of `range n` -/

theorem getD_set (l : List α) (i j : Nat) (v d : α) :
    (l.set i v).getD j d = if i = j ∧ j < l.length then v else l.getD j d := by
  induction l generalizing i j with
  | nil => simp
  | cons x xs ih =>
    cases i with
    | zero =>
      cases j with
      | zero => simp
      | succ j => simp
    | succ i =>
      cases j with
      | zero => simp
      | succ j =>
        simp only [List.set_cons_succ, List.getD_cons_succ, List.length_cons, ih i j]
        by_cases h1 : i = j
        · by_cases h2 : j < xs.length <;> simp [h1, h2] <;> omega
        · simp [h1]

theorem count_set_add [DecidableEq α] (l : List α) (i : Nat) (v a : α)
    (hi : i < l.length) :
    (l.set i v).count a + (if l[i] = a then 1 else 0)
      = l.count a + (if v = a then 1 else 0) := by
  induction l generalizing i with
  | nil => simp at hi
  | cons x xs ih =>
    cases i with
    | zero =>
      show (v :: xs).count a + (if x = a then 1 else 0)
        = (x :: xs).count a + (if v = a then 1 else 0)
      simp only [List.count_cons, beq_iff_eq]
      omega
    | succ i =>
      have hi' : i < xs.length := by simpa using hi
      have h := ih i hi'
      simp only [List.set_cons_succ, List.getElem_cons_succ, List.count_cons,
        beq_iff_eq] at h ⊢
      omega

theorem listSwap_perm (l : List Nat) (i j : Nat) (hi : i < l.length)
    (hj : j < l.length) : List.Perm (listSwap l i j) l := by
  rw [List.perm_iff_count]
  intro a
  show List.count a ((l.set i (l.getD j 0)).set j (l.getD i 0)) = List.count a l
  have hj' : j < (l.set i (l.getD j 0)).length := by simpa using hj
  have h1 := count_set_add (l.set i (l.getD j 0)) j (l.getD i 0) a hj'
  have h2 := count_set_add l i (l.getD j 0) a hi
  have hyj : (l.set i (l.getD j 0))[j] = l.getD j 0 := by
    rw [List.getElem_set]
    split
    · rfl
    · exact (List.getD_eq_getElem l 0 hj).symm
  rw [hyj] at h1
  rw [List.getD_eq_getElem l 0 hi] at h1
  rw [List.getD_eq_getElem l 0 hi]
  omega

theorem randbelowFuel_lt (n k : Nat) (hn : 0 < n) :
    ∀ (fuel : Nat) (s : MTState), (randbelowFuel n k fuel s).1 < n := by
  intro fuel
  induction fuel with
  | zero => intro s; simpa [randbelowFuel] using hn
  | succ f ih =>
    intro s
    by_cases h : (getrandbits s k).1 < n
    · simpa [randbelowFuel, h] using h
    · simpa [randbelowFuel, h] using ih (getrandbits s k).2

theorem randbelow_lt (s : MTState) (n : Nat) (hn : 0 < n) :
    (randbelow s n).1 < n :=
  randbelowFuel_lt n (bitLength n) hn 4294967296 s

theorem foldl_shuffleStep_perm :
    ∀ (iter x : List Nat) (s : MTState),
      (∀ i ∈ iter, i < x.length) → List.Perm (iter.foldl shuffleStep (x, s)).1 x := by
  intro iter
  induction iter with
  | nil => intro x s _; exact List.Perm.refl x
  | cons i rest ih =>
    intro x s hmem
    have hi : i < x.length := hmem i (by simp)
    have hstep : shuffleStep (x, s) i
        = (listSwap x i (randbelow s (i + 1)).1, (randbelow s (i + 1)).2) := rfl
    have hswap : List.Perm (listSwap x i (randbelow s (i + 1)).1) x :=
      listSwap_perm x i _ hi (by have := randbelow_lt s (i + 1) (by omega); omega)
    have hrest := ih (listSwap x i (randbelow s (i + 1)).1) (randbelow s (i + 1)).2
      (fun t ht => by rw [hswap.length_eq]; exact hmem t (List.mem_cons_of_mem _ ht))
    simpa [List.foldl_cons, hstep] using hrest.trans hswap

theorem pyShuffleIndices_perm (n seed : Nat) :
    List.Perm (pyShuffleIndices n seed) (List.range n) := by
  unfold pyShuffleIndices pyShuffle
  apply foldl_shuffleStep_perm
  intro i hi
  rw [List.mem_reverse] at hi
  have h := List.mem_range'_1.1 hi
  rw [List.length_range] at h ⊢
  omega

theorem pyShuffleIndices_length (n seed : Nat) :
    (pyShuffleIndices n seed).length = n := by
  rw [(pyShuffleIndices_perm n seed).length_eq, List.length_range]

theorem pyShuffleIndices_nodup (n seed : Nat) :
    (pyShuffleIndices n seed).Nodup :=
  ((pyShuffleIndices_perm n seed).nodup_iff).2 (List.nodup_range n)

theorem pyShuffleIndices_mem (n seed : Nat) (j : Nat) :
    j ∈ pyShuffleIndices n seed ↔ j < n := by
  rw [(pyShuffleIndices_perm n seed).mem_iff, List.mem_range]

/-! ### Scatter writes (`orig[indices[i]] = pixels[i]`) -/

theorem foldl_set_length (F : Nat → β) :
    ∀ (l : List Nat) (acc : List β),
      (l.foldl (fun a p => a.set p (F p)) acc).length = acc.length := by
  intro l
  induction l with
  | nil => intro acc; rfl
  | cons p l' ih =>
    intro acc
    rw [List.foldl_cons, ih (acc.set p (F p)), List.length_set]

theorem foldl_set_getD (F : Nat → β) (d : β) :
    ∀ (l : List Nat) (acc : List β) (j : Nat), j < acc.length →
      (l.foldl (fun a p => a.set p (F p)) acc).getD j d
        = if j ∈ l then F j else acc.getD j d := by
  intro l
  induction l with
  | nil => intro acc j _; simp
  | cons p l' ih =>
    intro acc j hja
    rw [List.foldl_cons, ih (acc.set p (F p)) j (by simpa using hja)]
    by_cases hjl : j ∈ l'
    · simp [hjl]
    · rw [getD_set]
      by_cases hpj : p = j
      · subst hpj
        simp [hjl, hja]
      · simp [hjl, hpj, List.mem_cons, Ne.symm hpj]

theorem map_getD_range (l : List α) (d : α) :
    (List.range l.length).map (fun i => l.getD i d) = l := by
  apply List.ext_getElem
  · simp
  · intro n h1 h2
    rw [List.getElem_map, List.getElem_range, List.getD_eq_getElem l d h2]

theorem perm_range_of_nodup_mem (l : List Nat) (n : Nat) (hlen : l.length = n)
    (hnd : l.Nodup) (hmem : ∀ x ∈ l, x < n) : List.Perm l (List.range n) := by
  rw [← Multiset.coe_eq_coe]
  apply Multiset.eq_of_le_of_card_le
  · rw [Multiset.le_iff_subset (Multiset.coe_nodup.2 hnd)]
    intro x hx
    rw [Multiset.mem_coe] at hx ⊢
    rw [List.mem_range]
    exact hmem x hx
  · simpa [hlen] using le_refl n

/-! ### The transforms of the source (`mode_xor`, `mode_swap`, `invert_swap`) -/

/-- Source `mode_xor` on the raw byte buffer `img.tobytes()`: XOR every byte
with the keystream of exactly the buffer's length
(`for i in range(len(data)): data[i] ^= ks[i]`). -/
def mode_xor (data : List Nat) (key : String) : List Nat :=
  let ks := keystream_bytes key (data.length : Int)
  (List.range data.length).map (fun i => data.getD i 0 ^^^ ks.getD i 0)

/-- Source `mode_swap` on the pixel list `list(img.getdata())`: regenerate the
shuffled index list from the key-derived seed and emit
`[pixels[i] for i in indices]`.  All indices are below `pixels.length`
(theorem `pyShuffleIndices_mem`), so the `getD` default is never read. -/
def mode_swap {α : Type _} [Inhabited α] (pixels : List α) (key : String) : List α :=
  let seed := derive_seed_from_key key
  let indices := pyShuffleIndices pixels.length seed
  indices.map (fun i => pixels.getD i default)

/-- Source `invert_swap`: regenerate the same index list, then scatter
(`orig = [None] * n; for i in range(n): orig[indices[i]] = pixels[i]`).
Python's `None` placeholder is modelled by `Option`: the scatter list starts
as `replicate n none` and every write stores `some pixel`; the final
`Image.putdata(orig)` reads the stored values, modelled by stripping the
`some` (every position is written exactly once, see `invert_swap_getD`). -/
def invert_swap {α : Type _} [Inhabited α] (pixels : List α) (key : String) : List α :=
  let n := pixels.length
  let seed := derive_seed_from_key key
  let indices := pyShuffleIndices n seed
  let orig : List (Option α) :=
    (List.range n).foldl
      (fun acc i => acc.set (indices.getD i 0) (some (pixels.getD i default)))
      (List.replicate n none)
  orig.map (fun o => o.getD default)

/-- The CLI operation selector of `main`. -/
inductive PyOperation
  | encrypt
  | decrypt
deriving DecidableEq

/-- The CLI mode selector of `main`. -/
inductive PyMode
  | swap
  | xor
deriving DecidableEq

/-- `img.getdata()` for an RGBA image whose raw bytes are `img`: the list of
4-byte pixel tuples (`load_image` converts every input to RGBA). -/
def img_getdata (img : List Nat) : List (List Nat) := chunksOf 4 img

/-- `mode_swap` at the level of the raw RGBA byte buffer. -/
def mode_swap_img (img : List Nat) (key : String) : List Nat :=
  (mode_swap (img_getdata img) key).flatten

/-- `invert_swap` at the level of the raw RGBA byte buffer. -/
def invert_swap_img (img : List Nat) (key : String) : List Nat :=
  (invert_swap (img_getdata img) key).flatten

/-- The dispatch of `main` (source lines 82-85): mode `xor` ignores the
operation; mode `swap` picks `mode_swap` for encrypt and `invert_swap`
for decrypt. -/
def run_transform (op : PyOperation) (mode : PyMode) (img : List Nat)
    (key : String) : List Nat :=
  match mode with
  | PyMode.xor => mode_xor img key
  | PyMode.swap =>
    match op with
    | PyOperation.encrypt => mode_swap_img img key
    | PyOperation.decrypt => invert_swap_img img key

/-- Error kinds of the spec's core boundary (section 7). -/
inductive CoreError
  | SizeMismatch
  | InvalidPermutation
deriving DecidableEq

/-- Modelled from the spec: the repository inlines the permutation
application inside `mode_swap` with a permutation it just generated, and has
no standalone `apply(buffer, permutation)` taking an external permutation;
this definition follows section 4.2 of the spec: fail with `SizeMismatch`
when the lengths differ, validate the bijection, else
`buffer'[i] = buffer[permutation[i]]`. -/
def applyPerm {α : Type _} [Inhabited α] (buffer : List α) (perm : List Nat) :
    Except CoreError (List α) :=
  if perm.length ≠ buffer.length then Except.error CoreError.SizeMismatch
  else if ¬ (perm.Nodup ∧ ∀ x ∈ perm, x < buffer.length) then
    Except.error CoreError.InvalidPermutation
  else Except.ok (perm.map (fun i => buffer.getD i default))

/-- Modelled from the spec: the inverse counterpart of `applyPerm`
(section 4.2), `buffer'[permutation[i]] = buffer[i]`, with the same
`SizeMismatch` and bijection validation. -/
def invertPerm {α : Type _} [Inhabited α] (buffer : List α) (perm : List Nat) :
    Except CoreError (List α) :=
  if perm.length ≠ buffer.length then Except.error CoreError.SizeMismatch
  else if ¬ (perm.Nodup ∧ ∀ x ∈ perm, x < buffer.length) then
    Except.error CoreError.InvalidPermutation
  else Except.ok (((List.range buffer.length).foldl
    (fun acc i => acc.set (perm.getD i 0) (some (buffer.getD i default)))
    (List.replicate buffer.length none)).map (fun o => o.getD default))

/-! ### Characterization of `mode_swap` and `invert_swap` -/

theorem indexOf_getElem_of_nodup (l : List Nat) (hnd : l.Nodup) (i : Nat)
    (hi : i < l.length) : l.indexOf l[i] = i := by
  have hmem : l[i] ∈ l := List.getElem_mem hi
  have hlt : l.indexOf l[i] < l.length := List.indexOf_lt_length.2 hmem
  have hget : l[l.indexOf l[i]] = l[i] := List.getElem_indexOf hlt
  exact (hnd.getElem_inj_iff).1 hget

theorem foldl_set_length2 (idx : Nat → Nat) (g : Nat → β) :
    ∀ (l : List Nat) (acc : List β),
      (l.foldl (fun a i => a.set (idx i) (g i)) acc).length = acc.length := by
  intro l
  induction l with
  | nil => intro acc; rfl
  | cons p l' ih => intro acc; rw [List.foldl_cons, ih, List.length_set]

theorem scatter_foldl_getD {α : Type _} (pixels : List α) (indices : List Nat)
    (dflt : α) (hlen : indices.length = pixels.length) (hnd : indices.Nodup)
    (j : Nat) (hjmem : j ∈ indices) (hj : j < pixels.length) :
    ((List.range pixels.length).foldl
        (fun acc i => acc.set (indices.getD i 0) (some (pixels.getD i dflt)))
        (List.replicate pixels.length (none : Option α))).getD j none
      = some (pixels.getD (indices.indexOf j) dflt) := by
  have hext : (List.range pixels.length).foldl
      (fun acc i => acc.set (indices.getD i 0) (some (pixels.getD i dflt)))
      (List.replicate pixels.length (none : Option α))
    = (List.range pixels.length).foldl
      (fun acc i => acc.set (indices.getD i 0)
        ((fun p => some (pixels.getD (indices.indexOf p) dflt)) (indices.getD i 0)))
      (List.replicate pixels.length none) := by
    apply List.foldl_ext
    intro acc i hi
    rw [List.mem_range] at hi
    have hi' : i < indices.length := by omega
    rw [List.getD_eq_getElem indices 0 hi']
    show acc.set indices[i] (some (pixels.getD i dflt))
      = acc.set indices[i] (some (pixels.getD (indices.indexOf indices[i]) dflt))
    rw [indexOf_getElem_of_nodup indices hnd i hi']
  rw [hext,
    ← List.foldl_map (fun i => indices.getD i 0)
      (fun a p => a.set p ((fun q => some (pixels.getD (indices.indexOf q) dflt)) p))
      (List.range pixels.length) (List.replicate pixels.length none)]
  have hmap : (List.range pixels.length).map (fun i => indices.getD i 0) = indices := by
    rw [← hlen]
    exact map_getD_range indices 0
  rw [hmap,
    foldl_set_getD (fun q => some (pixels.getD (indices.indexOf q) dflt)) none indices
      (List.replicate pixels.length none) j (by simpa using hj)]
  simp [hjmem]

theorem map_stripOption_getD {α : Type _} [Inhabited α] (L : List (Option α))
    (j : Nat) (hj : j < L.length) (v : α) (hv : L.getD j none = some v) :
    (L.map (fun o => o.getD default)).getD j default = v := by
  rw [List.getD_eq_getElem (L.map fun o => o.getD default) default (by simpa using hj),
    List.getElem_map]
  rw [List.getD_eq_getElem L none hj] at hv
  rw [hv]
  rfl

theorem invert_swap_getD {α : Type _} [Inhabited α] (pixels : List α) (key : String)
    (j : Nat) (hj : j < pixels.length) :
    (invert_swap pixels key).getD j default
      = pixels.getD
          ((pyShuffleIndices pixels.length (derive_seed_from_key key)).indexOf j)
          default := by
  have hlen := pyShuffleIndices_length pixels.length (derive_seed_from_key key)
  have hnd := pyShuffleIndices_nodup pixels.length (derive_seed_from_key key)
  have hjmem : j ∈ pyShuffleIndices pixels.length (derive_seed_from_key key) :=
    (pyShuffleIndices_mem _ _ j).2 hj
  have hsc := scatter_foldl_getD pixels
    (pyShuffleIndices pixels.length (derive_seed_from_key key)) default hlen hnd j hjmem hj
  have horiglen : ((List.range pixels.length).foldl
      (fun acc i => acc.set
        ((pyShuffleIndices pixels.length (derive_seed_from_key key)).getD i 0)
        (some (pixels.getD i default)))
      (List.replicate pixels.length (none : Option α))).length = pixels.length := by
    rw [foldl_set_length2
      (fun i => (pyShuffleIndices pixels.length (derive_seed_from_key key)).getD i 0)
      (fun i => some (pixels.getD i default)), List.length_replicate]
  simp only [invert_swap]
  exact map_stripOption_getD _ j (by rw [horiglen]; exact hj) _ hsc

theorem invert_swap_length {α : Type _} [Inhabited α] (pixels : List α) (key : String) :
    (invert_swap pixels key).length = pixels.length := by
  simp only [invert_swap]
  rw [List.length_map, foldl_set_length2
    (fun i => (pyShuffleIndices pixels.length (derive_seed_from_key key)).getD i 0)
    (fun i => some (pixels.getD i default)), List.length_replicate]

theorem mode_swap_length {α : Type _} [Inhabited α] (pixels : List α) (key : String) :
    (mode_swap pixels key).length = pixels.length := by
  simp only [mode_swap]
  rw [List.length_map, pyShuffleIndices_length]

theorem mode_swap_perm {α : Type _} [Inhabited α] (pixels : List α) (key : String) :
    List.Perm (mode_swap pixels key) pixels := by
  simp only [mode_swap]
  have h := (pyShuffleIndices_perm pixels.length (derive_seed_from_key key)).map
    (fun i => pixels.getD i default)
  rw [map_getD_range pixels default] at h
  exact h

theorem invert_swap_eq_map {α : Type _} [Inhabited α] (pixels : List α) (key : String) :
    invert_swap pixels key
      = (List.range pixels.length).map
          (fun j => pixels.getD
            ((pyShuffleIndices pixels.length (derive_seed_from_key key)).indexOf j)
            default) := by
  apply List.ext_getElem
  · rw [invert_swap_length]
    simp
  · intro j h1 h2
    have hj : j < pixels.length := by simpa using h2
    rw [List.getElem_map, List.getElem_range,
      ← List.getD_eq_getElem (invert_swap pixels key) default h1]
    exact invert_swap_getD pixels key j hj

theorem pyShuffleIndices_indexOf_perm (n seed : Nat) :
    List.Perm ((List.range n).map (fun j => (pyShuffleIndices n seed).indexOf j))
      (List.range n) := by
  apply perm_range_of_nodup_mem
  · simp
  · refine List.Nodup.map_on ?_ (List.nodup_range n)
    intro x hx y hy hxy
    rw [List.mem_range] at hx hy
    have hx' : x ∈ pyShuffleIndices n seed := (pyShuffleIndices_mem n seed x).2 hx
    have hy' : y ∈ pyShuffleIndices n seed := (pyShuffleIndices_mem n seed y).2 hy
    have hlx : (pyShuffleIndices n seed).indexOf x < (pyShuffleIndices n seed).length :=
      List.indexOf_lt_length.2 hx'
    have hly : (pyShuffleIndices n seed).indexOf y < (pyShuffleIndices n seed).length :=
      List.indexOf_lt_length.2 hy'
    have h1 : (pyShuffleIndices n seed).get ⟨(pyShuffleIndices n seed).indexOf x, hlx⟩ = x := by
      rw [List.get_eq_getElem]
      exact List.getElem_indexOf hlx
    have h2 : (pyShuffleIndices n seed).get ⟨(pyShuffleIndices n seed).indexOf y, hly⟩ = y := by
      rw [List.get_eq_getElem]
      exact List.getElem_indexOf hly
    rw [← h1, ← h2]
    simp only [hxy]
  · intro x hxm
    rcases List.mem_map.1 hxm with ⟨j, hj, rfl⟩
    rw [List.mem_range] at hj
    have hmem : j ∈ pyShuffleIndices n seed := (pyShuffleIndices_mem n seed j).2 hj
    have hlt := List.indexOf_lt_length.2 hmem
    rw [pyShuffleIndices_length] at hlt
    exact hlt

theorem invert_swap_perm {α : Type _} [Inhabited α] (pixels : List α) (key : String) :
    List.Perm (invert_swap pixels key) pixels := by
  rw [invert_swap_eq_map]
  have hp := (pyShuffleIndices_indexOf_perm pixels.length (derive_seed_from_key key)).map
    (fun i => pixels.getD i default)
  rw [map_getD_range pixels default, List.map_map] at hp
  simpa [Function.comp] using hp

theorem mode_xor_length (data : List Nat) (key : String) :
    (mode_xor data key).length = data.length := by
  simp [mode_xor]

theorem mode_xor_getElem (data : List Nat) (key : String) (j : Nat)
    (hj : j < (mode_xor data key).length) :
    (mode_xor data key)[j]
      = data.getD j 0 ^^^ (keystream_bytes key (data.length : Int)).getD j 0 := by
  simp only [mode_xor] at hj ⊢
  rw [List.getElem_map, List.getElem_range]

theorem foldl_byte_lt :
    ∀ (bs : List Nat), (∀ b ∈ bs, b < 256) →
      ∀ a, List.foldl (fun x b => x * 256 + b) a bs < (a + 1) * 256 ^ bs.length := by
  intro bs
  induction bs with
  | nil => intro _ a; simpa using Nat.lt_succ_self a
  | cons b rest ih =>
    intro hb a
    have hb0 : b < 256 := hb b (by simp)
    have h1 := ih (fun x hx => hb x (List.mem_cons_of_mem _ hx)) (a * 256 + b)
    calc List.foldl (fun x b => x * 256 + b) (a * 256 + b) rest
        < (a * 256 + b + 1) * 256 ^ rest.length := h1
      _ ≤ ((a + 1) * 256) * 256 ^ rest.length :=
          Nat.mul_le_mul_right _ (by omega)
      _ = (a + 1) * 256 ^ (rest.length + 1) := by ring

theorem derive_seed_lt (key : String) : derive_seed_from_key key < 2 ^ 64 := by
  unfold derive_seed_from_key beBytesToNat
  have hmem : ∀ b ∈ (sha256 (utf8Encode key)).take 8, b < 256 := fun b hb =>
    sha256_bytes_lt _ b (List.take_subset 8 _ hb)
  have h := foldl_byte_lt _ hmem 0
  have hlen : ((sha256 (utf8Encode key)).take 8).length ≤ 8 := by
    simp [List.length_take]
  calc List.foldl (fun a b => a * 256 + b) 0 ((sha256 (utf8Encode key)).take 8)
      < (0 + 1) * 256 ^ ((sha256 (utf8Encode key)).take 8).length := h
    _ ≤ 256 ^ 8 := by
        simpa using Nat.pow_le_pow_right (by norm_num) hlen
    _ = 2 ^ 64 := by norm_num

/-! ### The claims -/

/-- Claim C1: swap-mode round trip.  For every pixel buffer and every key,
applying the forward swap transform (`mode_swap`) and then the inverse swap
transform (`invert_swap`) with the same key returns a buffer equal to the
original element for element; the permutation is regenerated from
`(length, derive_seed_from_key key)` inside each transform. -/
theorem claim_C1 {α : Type _} [Inhabited α] (pixels : List α) (key : String) :
    invert_swap (mode_swap pixels key) key = pixels := by
  apply List.ext_getElem
  · rw [invert_swap_length, mode_swap_length]
  · intro j h1 h2
    have hq : (mode_swap pixels key).length = pixels.length := mode_swap_length pixels key
    rw [← List.getD_eq_getElem (invert_swap (mode_swap pixels key) key) default h1]
    rw [invert_swap_getD (mode_swap pixels key) key j (by rw [hq]; exact h2)]
    rw [hq]
    have hjmem : j ∈ pyShuffleIndices pixels.length (derive_seed_from_key key) :=
      (pyShuffleIndices_mem _ _ j).2 h2
    have hidxlt : (pyShuffleIndices pixels.length (derive_seed_from_key key)).indexOf j
        < (pyShuffleIndices pixels.length (derive_seed_from_key key)).length :=
      List.indexOf_lt_length.2 hjmem
    have hms : mode_swap pixels key
        = (pyShuffleIndices pixels.length (derive_seed_from_key key)).map
            (fun i => pixels.getD i default) := rfl
    rw [hms, List.getD_eq_getElem _ default (by simpa using hidxlt), List.getElem_map,
      List.getElem_indexOf hidxlt]
    exact List.getD_eq_getElem pixels default h2

/-- Claim C2: XOR involution.  For every byte buffer and every key, applying
`mode_xor` twice with the same key restores the buffer exactly (the keystream
regenerated for the second pass has the same length, hence the same bytes). -/
theorem claim_C2 (data : List Nat) (key : String) :
    mode_xor (mode_xor data key) key = data := by
  apply List.ext_getElem
  · rw [mode_xor_length, mode_xor_length]
  · intro j h1 h2
    have h2' : j < data.length := by
      rw [mode_xor_length, mode_xor_length] at h1
      exact h1
    have hol : (mode_xor data key).length = data.length := mode_xor_length data key
    have hout : j < (mode_xor data key).length := by rw [hol]; exact h2'
    rw [mode_xor_getElem (mode_xor data key) key j h1]
    rw [hol]
    rw [List.getD_eq_getElem (mode_xor data key) 0 hout,
      mode_xor_getElem data key j hout]
    rw [Nat.xor_assoc, Nat.xor_self, Nat.xor_zero]
    exact List.getD_eq_getElem data 0 h2'

/-- Claim C3: permutation validity and determinism.  For every length and
seed, the index list produced by seeding the generator and shuffling
`range n` is a permutation of `[0..n)` (a bijection: no duplicates, every
index below `n` occurs), and the computation is a pure function of
`(n, seed)`, so two invocations agree. -/
theorem claim_C3 (n seed : Nat) :
    List.Perm (pyShuffleIndices n seed) (List.range n) ∧
      (pyShuffleIndices n seed).Nodup ∧
      (∀ j, j ∈ pyShuffleIndices n seed ↔ j < n) ∧
      pyShuffleIndices n seed = pyShuffleIndices n seed :=
  ⟨pyShuffleIndices_perm n seed, pyShuffleIndices_nodup n seed,
   pyShuffleIndices_mem n seed, rfl⟩

/-- Claim C4: seed derivation.  For every passphrase, `derive_seed_from_key`
equals the first 8 bytes of the SHA-256 digest of the UTF-8 encoding read as
a big-endian unsigned integer, and the result is below `2 ^ 64`; it is a
pure function of the passphrase alone. -/
theorem claim_C4 (key : String) :
    derive_seed_from_key key
        = beBytesToNat ((sha256 (utf8Encode key)).take 8) ∧
      derive_seed_from_key key < 2 ^ 64 :=
  ⟨rfl, derive_seed_lt key⟩

/-- Claim C5: keystream construction and exact length.  For every passphrase
and every requested length `L ≥ 0`, the keystream has exactly `L` bytes and
equals the first `L` bytes of `H1 ++ H2 ++ ...`, where `H0` is the digest of
the passphrase and each `H(i+1)` is the digest of `Hi`; `L = 0` yields the
empty sequence. -/
theorem claim_C5 (key : String) (L : Int) (hL : 0 ≤ L) :
    (keystream_bytes key L).length = L.toNat ∧
      ∀ m : Nat, L.toNat ≤ 32 * m →
        keystream_bytes key L = (chainBytes key m).take L.toNat :=
  ⟨keystream_bytes_length key L hL, fun m hm => keystream_bytes_take key L hL m hm⟩

/-- Witness for C5 at the concrete input `key = "k"`, `L = 3`. -/
theorem claim_C5_witness :
    (0 : Int) ≤ 3 ∧
      ((keystream_bytes "k" 3).length = (3 : Int).toNat ∧
        ∀ m : Nat, (3 : Int).toNat ≤ 32 * m →
          keystream_bytes "k" 3 = (chainBytes "k" m).take (3 : Int).toNat) :=
  ⟨by decide, claim_C5 "k" 3 (by decide)⟩

/-- Claim C6: keystream prefix law.  For every passphrase and all `L, k ≥ 0`,
the keystream of length `L` is the first `L` bytes of the keystream of
length `L + k`: each byte depends only on the passphrase and its position. -/
theorem claim_C6 (key : String) (L k : Int) (hL : 0 ≤ L) (hk : 0 ≤ k) :
    keystream_bytes key L = (keystream_bytes key (L + k)).take L.toNat := by
  have h1 : L.toNat ≤ (L + k).toNat := Int.toNat_le_toNat (by omega)
  have hm : (L + k).toNat ≤ 32 * (L + k).toNat := by omega
  have hLm : L.toNat ≤ 32 * (L + k).toNat := by omega
  rw [keystream_bytes_take key (L + k) (by omega) ((L + k).toNat) hm,
    keystream_bytes_take key L hL ((L + k).toNat) hLm, List.take_take]
  have hmin : L.toNat ⊓ (L + k).toNat = L.toNat := min_eq_left h1
  rw [hmin]

/-- Witness for C6 at the concrete input `key = "k"`, `L = 1`, `k = 2`. -/
theorem claim_C6_witness :
    (0 : Int) ≤ 1 ∧ (0 : Int) ≤ 2 ∧
      keystream_bytes "k" 1 = (keystream_bytes "k" (1 + 2)).take (1 : Int).toNat :=
  ⟨by decide, by decide, claim_C6 "k" 1 2 (by decide) (by decide)⟩

/-- Claim C7 (amended): a negative requested length is not rejected.
`keystream_bytes` raises no error for `L < 0`: the generation loop never
runs and the Python slice `out[:length]` of the empty buffer returns the
empty byte sequence. -/
theorem claim_C7 (key : String) (L : Int) (hL : L < 0) :
    keystream_bytes key L = [] :=
  keystream_bytes_of_neg key L hL

/-- Counterexample to C7 as stated: at the concrete input
`key = "k"`, `L = -1`, the source's `keystream_bytes` returns the empty byte
sequence instead of failing with an InvalidInput error. -/
theorem claim_C7_counterexample : keystream_bytes "k" (-1) = [] :=
  keystream_bytes_of_neg "k" (-1) (by decide)

/-- Witness for the amended C7 at the concrete input `key = "p"`, `L = -2`. -/
theorem claim_C7_witness :
    (-2 : Int) < 0 ∧ keystream_bytes "p" (-2) = [] :=
  ⟨by decide, claim_C7 "p" (-2) (by decide)⟩

/-- Claim C8 (spec-modelled): size-mismatch rejection.  The engine's
`apply`/`invert` with a permutation whose length differs from the buffer
length fail with `SizeMismatch` and produce no output buffer. -/
theorem claim_C8 {α : Type _} [Inhabited α] (buffer : List α) (perm : List Nat)
    (h : perm.length ≠ buffer.length) :
    applyPerm buffer perm = Except.error CoreError.SizeMismatch ∧
      invertPerm buffer perm = Except.error CoreError.SizeMismatch := by
  constructor
  · simp [applyPerm, h]
  · simp [invertPerm, h]

/-- Witness for C8 at a concrete mismatched pair: buffer `[10, 20, 30]`,
permutation `[0, 1]`. -/
theorem claim_C8_witness :
    ([0, 1] : List Nat).length ≠ ([10, 20, 30] : List Nat).length ∧
      (applyPerm ([10, 20, 30] : List Nat) [0, 1]
          = Except.error CoreError.SizeMismatch ∧
        invertPerm ([10, 20, 30] : List Nat) [0, 1]
          = Except.error CoreError.SizeMismatch) :=
  ⟨by decide, claim_C8 [10, 20, 30] [0, 1] (by decide)⟩

/-- Claim C9: codec xor symmetry.  In the `main` dispatch, mode `xor` calls
the identical transform for both operations, so encrypt and decrypt agree on
every buffer and key. -/
theorem claim_C9 (img : List Nat) (key : String) :
    run_transform PyOperation.encrypt PyMode.xor img key
      = run_transform PyOperation.decrypt PyMode.xor img key := rfl

/-- Claim C10: swap mode preserves the pixel values as a multiset.  Both
`mode_swap` and `invert_swap` keep the buffer length and permute the
elements: every value occurs in the output exactly as often as in the
input. -/
theorem claim_C10 {α : Type _} [Inhabited α] [DecidableEq α]
    (pixels : List α) (key : String) :
    (mode_swap pixels key).length = pixels.length ∧
      (invert_swap pixels key).length = pixels.length ∧
      List.Perm (mode_swap pixels key) pixels ∧
      List.Perm (invert_swap pixels key) pixels ∧
      (∀ v, List.count v (mode_swap pixels key) = List.count v pixels) ∧
      (∀ v, List.count v (invert_swap pixels key) = List.count v pixels) :=
  ⟨mode_swap_length pixels key, invert_swap_length pixels key,
   mode_swap_perm pixels key, invert_swap_perm pixels key,
   fun v => (mode_swap_perm pixels key).count_eq v,
   fun v => (invert_swap_perm pixels key).count_eq v⟩
